import Mathlib

/-!
Verification of the generic stream codec driver (`cppcodec/detail/stream_codec.hpp`):
a shallow embedding of `stream_codec<Codec, CodecVariant>::encode`, `::decode`,
`::encoded_size` and `::decoded_max_size`, together with theorems about the
encode/decode loops, the size formulas, and the padding validation scan.

The two collaborator roles are represented as structures of functions:
`Codec` supplies the block sizes and the per-block conversions, `CodecVariant`
supplies character classification and the padding policy.  Machine pointers are
replaced by lists; the fixed `uint8_t idx[E]` buffer is modelled as a total
function `Nat → Nat` so that stores past the end of the buffer remain
observable; exceptions (`padding_error`, `symbol_error`) and `abort()` are
modelled with an error type in `Except`.
-/

/-- The error outcomes of the C++ code: `padding_error`, the `symbol_error`
raised by a `CodecVariant::index_of` call on an unclassifiable character, and
the fatal `abort()` call for internal contract violations. -/
inductive Err where
  | symbol : Err
  | padding : Err
  | abort : Err
deriving DecidableEq

/-- The `CodecVariant` collaborator.  Modelled from the spec: the per-alphabet
character classification lives outside the stream codec core.  `index_of`
returns the classified value of a character (a data value or a sentinel), or
`none` for an invalid character, in which case the real collaborator raises a
`symbol_error`; the predicates classify sentinel values, and the two `Bool`
flags are the per-variant padding policy. -/
structure CodecVariant where
  index_of : Char → Option Nat
  should_ignore : Nat → Bool
  is_special_character : Nat → Bool
  is_padding_symbol : Nat → Bool
  is_eof : Nat → Bool
  requires_padding : Bool
  generates_padding : Bool

/-- The `Codec` (block codec) collaborator.  Modelled from the spec: the block
sizes are positive compile-time constants, `encode_block`/`encode_tail`/`pad`
produce the symbols appended to the encoded result, and
`decode_block`/`decode_tail` turn accumulated index values back into bytes. -/
structure Codec where
  binary_block_size : Nat
  encoded_block_size : Nat
  binary_block_size_pos : 0 < binary_block_size
  encoded_block_size_pos : 0 < encoded_block_size
  encode_block : List Nat → List Char
  encode_tail : List Nat → List Char
  pad : Nat → List Char
  decode_block : List Nat → List Nat
  decode_tail : List Nat → List Nat

/-- Pointwise update of the modelled index buffer (`idx[i] = v`). -/
def upd (f : Nat → Nat) (i v : Nat) : Nat → Nat :=
  fun j => if j = i then v else f j

/-- The first `n` entries of the modelled index buffer, as passed to
`decode_block` / `decode_tail`. -/
def readIdx (f : Nat → Nat) (n : Nat) : List Nat :=
  (List.range n).map f

/-- The local state of the decode loop: the index buffer `idx`, the fill
cursor `last_value_idx`, and the binary output accumulated so far. -/
structure DecSt where
  idx : Nat → Nat
  lvi : Nat
  out : List Nat

/-- State at entry of `decode`: `uint8_t idx[E] = {}` and a zero cursor. -/
def initSt : DecSt := ⟨fun _ => 0, 0, []⟩

/-- The main `while` loop of `stream_codec::decode` (lines 87-100): classify
each character, skip ignorable ones, break on a special character (returning
`some rest` with the unconsumed input), store data values at the cursor and
flush a full block through `decode_block`.  Returns `none` as the remaining
input when the loop ran off the end of the input. -/
def mainRun (V : CodecVariant) (C : Codec) :
    List Char → DecSt → Except Err (DecSt × Option (List Char))
  | [], st => .ok (st, none)
  | c :: rest, st =>
    match V.index_of c with
    | none => .error .symbol
    | some v =>
      let st1 : DecSt := ⟨upd st.idx st.lvi v, st.lvi, st.out⟩
      if V.should_ignore v = true then mainRun V C rest st1
      else if V.is_special_character v = true then .ok (st1, some rest)
      else if st.lvi + 1 = C.encoded_block_size then
        mainRun V C rest ⟨st1.idx, 0, st1.out ++ C.decode_block (readIdx st1.idx C.encoded_block_size)⟩
      else mainRun V C rest ⟨st1.idx, st.lvi + 1, st1.out⟩

/-- The bounded padding-validation scan of `stream_codec::decode`
(lines 103-118): each further character is stored at `last_idx` and must be a
padding symbol or the end marker; ending up with `last_idx` beyond
`encoded_block_size` is a padding error. -/
def padScan (V : CodecVariant) (C : Codec) :
    List Char → (Nat → Nat) → Nat → Except Err ((Nat → Nat) × Nat)
  | [], f, lidx => .ok (f, lidx)
  | c :: rest, f, lidx =>
    match V.index_of c with
    | none => .error .symbol
    | some v =>
      let f1 := upd f lidx v
      if V.is_eof v = true then .ok (f1, lidx)
      else if V.is_padding_symbol v = false then .error .padding
      else if C.encoded_block_size < lidx + 1 then .error .padding
      else padScan V C rest f1 (lidx + 1)

/-- Decode, after the main loop: enter the padding scan iff the value at the
cursor is a padding symbol (line 103), starting one position past it. -/
def scanPhase (V : CodecVariant) (C : Codec) (st : DecSt) (rest : List Char) :
    Except Err ((Nat → Nat) × Nat) :=
  if V.is_padding_symbol (st.idx st.lvi) = true then padScan V C rest st.idx (st.lvi + 1)
  else .ok (st.idx, st.lvi)

/-- The final-block handling of `stream_codec::decode` (lines 121-131): a
nonzero cursor with required-but-incomplete padding is a padding error, a
cursor at or past `encoded_block_size` hits `abort()`, otherwise the partial
block goes through `decode_tail`. -/
def finishPhase (V : CodecVariant) (C : Codec) (st : DecSt)
    (sc : Except Err ((Nat → Nat) × Nat)) : Except Err (List Nat) :=
  match sc with
  | .error e => .error e
  | .ok (f2, lidx) =>
    if st.lvi ≠ 0 then
      if V.requires_padding = true ∧ lidx ≠ C.encoded_block_size then .error .padding
      else if C.encoded_block_size ≤ st.lvi then .error .abort
      else .ok (st.out ++ C.decode_tail (readIdx f2 st.lvi))
    else .ok st.out

/-- Glue for `decode`: the scan and the final-block handling applied to the
outcome of the main loop. -/
def decodePost (V : CodecVariant) (C : Codec)
    (r : Except Err (DecSt × Option (List Char))) : Except Err (List Nat) :=
  match r with
  | .error e => .error e
  | .ok (st, orest) => finishPhase V C st (scanPhase V C st (orest.getD []))

/-- `stream_codec::decode` (lines 75-132). -/
def decode (V : CodecVariant) (C : Codec) (input : List Char) : Except Err (List Nat) :=
  decodePost V C (mainRun V C input initSt)

/-- The full-block loop of `stream_codec::encode` (lines 55-60): encode
`binary_block_size`-byte chunks while at least one full chunk remains, and
return the remaining bytes. -/
def encodeMain (C : Codec) (src : List Nat) : List Char × List Nat :=
  if h : C.binary_block_size ≤ src.length then
    let p := encodeMain C (src.drop C.binary_block_size)
    (C.encode_block (src.take C.binary_block_size) ++ p.1, p.2)
  else ([], src)
termination_by src.length
decreasing_by
  simp only [List.length_drop]
  exact Nat.sub_lt (Nat.lt_of_lt_of_le C.binary_block_size_pos h) C.binary_block_size_pos

/-- `stream_codec::encode` (lines 51-71): the full-block loop, then the tail
step with its contract check (`!remaining_src_len || remaining_src_len >=
binary_block_size` aborts), `encode_tail`, and `pad`. -/
def encode (C : Codec) (src : List Nat) : Except Err (List Char) :=
  let p := encodeMain C src
  if p.2.length ≠ 0 then
    if p.2.length = 0 ∨ C.binary_block_size ≤ p.2.length then .error .abort
    else .ok (p.1 ++ C.encode_tail p.2 ++ C.pad p.2.length)
  else .ok p.1

/-- `stream_codec::encoded_size` (lines 135-150). -/
def encoded_size (C : Codec) (V : CodecVariant) (binary_size : Nat) : Nat :=
  if V.generates_padding = true then
    (binary_size + (C.binary_block_size - 1)
        - ((binary_size + (C.binary_block_size - 1)) % C.binary_block_size))
      * C.encoded_block_size / C.binary_block_size
  else
    binary_size * C.encoded_block_size / C.binary_block_size
      + (if binary_size * C.encoded_block_size % C.binary_block_size ≠ 0 then 1 else 0)

/-- `stream_codec::decoded_max_size` (lines 153-161). -/
def decoded_max_size (C : Codec) (V : CodecVariant) (enc_size : Nat) : Nat :=
  if V.requires_padding = true then
    enc_size * C.binary_block_size / C.encoded_block_size
  else
    enc_size * C.binary_block_size / C.encoded_block_size
      + (if enc_size * C.binary_block_size % C.encoded_block_size ≠ 0 then 1 else 0)

/-- Store-position instrumentation of the main decode loop: the same code as
`mainRun`, additionally recording, in order, the buffer position of every
store `idx[last_value_idx] = ...` the loop performs. -/
def mainRunT (V : CodecVariant) (C : Codec) :
    List Char → DecSt → List Nat → Except Err (DecSt × Option (List Char)) × List Nat
  | [], st, tr => (.ok (st, none), tr)
  | c :: rest, st, tr =>
    match V.index_of c with
    | none => (.error .symbol, tr)
    | some v =>
      let st1 : DecSt := ⟨upd st.idx st.lvi v, st.lvi, st.out⟩
      let tr1 := tr ++ [st.lvi]
      if V.should_ignore v = true then mainRunT V C rest st1 tr1
      else if V.is_special_character v = true then (.ok (st1, some rest), tr1)
      else if st.lvi + 1 = C.encoded_block_size then
        mainRunT V C rest ⟨st1.idx, 0, st1.out ++ C.decode_block (readIdx st1.idx C.encoded_block_size)⟩ tr1
      else mainRunT V C rest ⟨st1.idx, st.lvi + 1, st1.out⟩ tr1

/-- Store-position instrumentation of the padding-validation scan: the same
code as `padScan`, recording the buffer position of every store
`idx[last_idx] = ...`. -/
def padScanT (V : CodecVariant) (C : Codec) :
    List Char → (Nat → Nat) → Nat → List Nat → Except Err ((Nat → Nat) × Nat) × List Nat
  | [], f, lidx, tr => (.ok (f, lidx), tr)
  | c :: rest, f, lidx, tr =>
    match V.index_of c with
    | none => (.error .symbol, tr)
    | some v =>
      let f1 := upd f lidx v
      let tr1 := tr ++ [lidx]
      if V.is_eof v = true then (.ok (f1, lidx), tr1)
      else if V.is_padding_symbol v = false then (.error .padding, tr1)
      else if C.encoded_block_size < lidx + 1 then (.error .padding, tr1)
      else padScanT V C rest f1 (lidx + 1) tr1

/-- Store-position instrumentation of `decode`: the decode outcome together
with the ordered list of buffer positions written by the main loop and the
padding-validation scan. -/
def decodeT (V : CodecVariant) (C : Codec) (input : List Char) :
    Except Err (List Nat) × List Nat :=
  match mainRunT V C input initSt [] with
  | (.error e, tr) => (.error e, tr)
  | (.ok (st, orest), tr) =>
    if V.is_padding_symbol (st.idx st.lvi) = true then
      match padScanT V C (orest.getD []) st.idx (st.lvi + 1) tr with
      | (.error e, tr2) => (.error e, tr2)
      | (.ok (f2, lidx), tr2) => (finishPhase V C st (.ok (f2, lidx)), tr2)
    else (finishPhase V C st (.ok (st.idx, st.lvi)), tr)

/-- Modelled from the spec: the base64 alphabet of the external
`base64_rfc4648` variant collaborator, as a concrete `index_of`.  Data symbols
map to 0..63; the sentinels are 64 for the end marker (the NUL character), 65
for the padding symbol `=`, and 66 for ignorable line breaks; everything else
is invalid. -/
def b64index_of (c : Char) : Option Nat :=
  if 'A' ≤ c ∧ c ≤ 'Z' then some (c.toNat - 65)
  else if 'a' ≤ c ∧ c ≤ 'z' then some (c.toNat - 97 + 26)
  else if '0' ≤ c ∧ c ≤ '9' then some (c.toNat - 48 + 52)
  else if c = '+' then some 62
  else if c = '/' then some 63
  else if c = '=' then some 65
  else if c = Char.ofNat 0 then some 64
  else if c = '\n' ∨ c = '\r' then some 66
  else none

/-- Modelled from the spec: a base64 variant collaborator with padding
required and generated, line breaks ignorable, and NUL as end marker. -/
def b64v : CodecVariant where
  index_of := b64index_of
  should_ignore := fun v => v == 66
  is_special_character := fun v => v == 64 || v == 65
  is_padding_symbol := fun v => v == 65
  is_eof := fun v => v == 64
  requires_padding := true
  generates_padding := true

/-- Modelled from the spec: the symbol for a base64 data value, used by the
external block codec when encoding. -/
def b64sym (v : Nat) : Char :=
  if v < 26 then Char.ofNat (65 + v)
  else if v < 52 then Char.ofNat (97 + v - 26)
  else if v < 62 then Char.ofNat (48 + v - 52)
  else if v = 62 then '+'
  else '/'

/-- Modelled from the spec: the external base64 block codec collaborator
(3 raw bytes per block, 4 symbols per block, bit regrouping in
`encode_block`/`decode_block`, partial blocks in `encode_tail`/`decode_tail`,
and `pad` filling the final block up to 4 symbols). -/
def b64c : Codec where
  binary_block_size := 3
  encoded_block_size := 4
  binary_block_size_pos := by decide
  encoded_block_size_pos := by decide
  encode_block := fun b =>
    let b0 := b.getD 0 0
    let b1 := b.getD 1 0
    let b2 := b.getD 2 0
    [b64sym (b0 / 4), b64sym (b0 % 4 * 16 + b1 / 16),
     b64sym (b1 % 16 * 4 + b2 / 64), b64sym (b2 % 64)]
  encode_tail := fun r =>
    let b0 := r.getD 0 0
    let b1 := r.getD 1 0
    if r.length = 1 then [b64sym (b0 / 4), b64sym (b0 % 4 * 16)]
    else [b64sym (b0 / 4), b64sym (b0 % 4 * 16 + b1 / 16), b64sym (b1 % 16 * 4)]
  pad := fun n => if n = 1 then ['=', '='] else if n = 2 then ['='] else []
  decode_block := fun vs =>
    let v0 := vs.getD 0 0
    let v1 := vs.getD 1 0
    let v2 := vs.getD 2 0
    let v3 := vs.getD 3 0
    [v0 * 4 + v1 / 16, v1 % 16 * 16 + v2 / 4, v2 % 4 * 64 + v3]
  decode_tail := fun vs =>
    let v0 := vs.getD 0 0
    let v1 := vs.getD 1 0
    let v2 := vs.getD 2 0
    if vs.length = 2 then [v0 * 4 + v1 / 16]
    else if vs.length = 3 then [v0 * 4 + v1 / 16, v1 % 16 * 16 + v2 / 4]
    else []

/-- A character classifying as a data symbol with value `v`: not ignorable and
not special, so the main decode loop stores it and advances the cursor. -/
def isData (V : CodecVariant) (c : Char) (v : Nat) : Prop :=
  V.index_of c = some v ∧ V.should_ignore v = false ∧ V.is_special_character v = false

/-- A character classifying as a padding symbol (special, not ignorable, not
the end marker). -/
def isPadChar (V : CodecVariant) (c : Char) : Prop :=
  ∃ v, V.index_of c = some v ∧ V.should_ignore v = false ∧
    V.is_special_character v = true ∧ V.is_padding_symbol v = true ∧ V.is_eof v = false

/-- No entry of the index buffer holds a padding-symbol value. -/
def padFreeIdx (V : CodecVariant) (f : Nat → Nat) : Prop :=
  ∀ j, V.is_padding_symbol (f j) = false

theorem upd_self (f : Nat → Nat) (i v : Nat) : upd f i v i = v := by
  simp [upd]

theorem upd_of_ne (f : Nat → Nat) (i v j : Nat) (h : j ≠ i) : upd f i v j = f j := by
  simp [upd, h]

theorem upd_upd_same (f : Nat → Nat) (i v w : Nat) : upd (upd f i v) i w = upd f i w := by
  funext j
  by_cases h : j = i <;> simp [upd, h]

theorem readIdx_zero (f : Nat → Nat) : readIdx f 0 = [] := rfl

theorem readIdx_succ (f : Nat → Nat) (n : Nat) :
    readIdx f (n + 1) = readIdx f n ++ [f n] := by
  simp [readIdx, List.range_succ]

theorem readIdx_upd_of_le (f : Nat → Nat) (m v n : Nat) (h : n ≤ m) :
    readIdx (upd f m v) n = readIdx f n := by
  unfold readIdx
  refine List.map_congr_left ?_
  intro j hj
  rw [List.mem_range] at hj
  exact upd_of_ne f m v j (by omega)

theorem readIdx_upd_snoc (f : Nat → Nat) (n v : Nat) :
    readIdx (upd f n v) (n + 1) = readIdx f n ++ [v] := by
  rw [readIdx_succ, readIdx_upd_of_le f n v n (Nat.le_refl n), upd_self]

theorem padFree_upd (V : CodecVariant) (f : Nat → Nat) (n v : Nat)
    (hf : padFreeIdx V f) (hv : V.is_padding_symbol v = false) :
    padFreeIdx V (upd f n v) := by
  intro j
  by_cases h : j = n
  · subst h; rw [upd_self]; exact hv
  · rw [upd_of_ne f n v j h]; exact hf j

theorem padFree_init (V : CodecVariant) (hz : V.is_padding_symbol 0 = false) :
    padFreeIdx V (fun _ => 0) := fun _ => hz

theorem ceil_div_eq (a b : Nat) (hb : 0 < b) :
    a / b + (if a % b ≠ 0 then 1 else 0) = (a + b - 1) / b := by
  obtain ⟨q, r, hr, rfl⟩ : ∃ q r, r < b ∧ b * q + r = a :=
    ⟨a / b, a % b, Nat.mod_lt _ hb, Nat.div_add_mod a b⟩
  rw [Nat.mul_add_div hb, Nat.mul_add_mod, Nat.mod_eq_of_lt hr,
    Nat.div_eq_of_lt hr]
  rcases Nat.eq_zero_or_pos r with rfl | hr1
  · rw [if_neg (by omega)]
    have h1 : b * q + 0 + b - 1 = b * q + (b - 1) := by omega
    rw [h1, Nat.mul_add_div hb, Nat.div_eq_of_lt (show b - 1 < b by omega)]
  · rw [if_pos (by omega)]
    have h1 : b * q + r + b - 1 = b * (q + 1) + (r - 1) := by rw [Nat.mul_succ]; omega
    rw [h1, Nat.mul_add_div hb, Nat.div_eq_of_lt (show r - 1 < b by omega)]

theorem sub_mod_eq_mul_div (m b : Nat) : m - m % b = b * (m / b) := by
  have h := Nat.div_add_mod m b
  omega

theorem roundup_bounds (n b : Nat) (hb : 0 < b) :
    n ≤ b * ((n + b - 1) / b) ∧ b * ((n + b - 1) / b) ≤ n + b - 1 := by
  have h1 := Nat.div_add_mod (n + b - 1) b
  have h2 : (n + b - 1) % b < b := Nat.mod_lt _ hb
  omega

theorem add_le_mul_succ (b e : Nat) (hb : 0 < b) (he : 0 < e) : b + e ≤ b * e + 1 := by
  obtain ⟨b', rfl⟩ : ∃ b', b = b' + 1 := ⟨b - 1, by omega⟩
  obtain ⟨e', rfl⟩ : ∃ e', e = e' + 1 := ⟨e - 1, by omega⟩
  have h : (b' + 1) * (e' + 1) = b' * e' + b' + e' + 1 := by ring
  rw [h]; omega

theorem encSize_pad_eq (C : Codec) (V : CodecVariant) (n : Nat)
    (hgp : V.generates_padding = true) :
    encoded_size C V n
      = ((n + C.binary_block_size - 1) / C.binary_block_size) * C.encoded_block_size := by
  have hb := C.binary_block_size_pos
  unfold encoded_size
  rw [if_pos hgp]
  have h0 : n + (C.binary_block_size - 1) = n + C.binary_block_size - 1 := by omega
  rw [h0, sub_mod_eq_mul_div,
    Nat.mul_comm C.binary_block_size ((n + C.binary_block_size - 1) / C.binary_block_size),
    Nat.mul_right_comm]
  exact Nat.mul_div_cancel _ hb

theorem encSize_nopad_eq (C : Codec) (V : CodecVariant) (n : Nat)
    (hgp : V.generates_padding = false) :
    encoded_size C V n
      = (n * C.encoded_block_size + C.binary_block_size - 1) / C.binary_block_size := by
  unfold encoded_size
  rw [if_neg (by rw [hgp]; exact Bool.false_ne_true)]
  exact ceil_div_eq _ _ C.binary_block_size_pos

theorem decMax_req_eq (C : Codec) (V : CodecVariant) (m : Nat)
    (hrp : V.requires_padding = true) :
    decoded_max_size C V m = m * C.binary_block_size / C.encoded_block_size := by
  unfold decoded_max_size
  rw [if_pos hrp]

theorem decMax_noreq_eq (C : Codec) (V : CodecVariant) (m : Nat)
    (hrp : V.requires_padding = false) :
    decoded_max_size C V m
      = (m * C.binary_block_size + C.encoded_block_size - 1) / C.encoded_block_size := by
  unfold decoded_max_size
  rw [if_neg (by rw [hrp]; exact Bool.false_ne_true)]
  exact ceil_div_eq _ _ C.encoded_block_size_pos

theorem mainRun_append (V : CodecVariant) (C : Codec) :
    ∀ (s r : List Char) (st : DecSt),
    mainRun V C (s ++ r) st =
      match mainRun V C s st with
      | .error e => .error e
      | .ok (st1, some rest) => .ok (st1, some (rest ++ r))
      | .ok (st1, none) => mainRun V C r st1 := by
  intro s
  induction s with
  | nil => intro r st; rfl
  | cons c s ih =>
    intro r st
    simp only [List.cons_append, mainRun]
    cases hv : V.index_of c with
    | none => rfl
    | some v =>
      by_cases hig : V.should_ignore v = true
      · simp only [if_pos hig]
        exact ih r _
      · simp only [if_neg hig]
        by_cases hsp : V.is_special_character v = true
        · simp only [if_pos hsp]
          rfl
        · simp only [if_neg hsp]
          by_cases hfl : st.lvi + 1 = C.encoded_block_size
          · simp only [if_pos hfl]
            exact ih r _
          · simp only [if_neg hfl]
            exact ih r _

theorem mainRun_padFree (V : CodecVariant) (C : Codec)
    (hip : ∀ v, V.should_ignore v = true → V.is_padding_symbol v = false)
    (hPS : ∀ v, V.is_padding_symbol v = true → V.is_special_character v = true) :
    ∀ (s : List Char) (st st1 : DecSt), mainRun V C s st = .ok (st1, none) →
    padFreeIdx V st.idx → padFreeIdx V st1.idx := by
  intro s
  induction s with
  | nil =>
    intro st st1 h hf
    simp only [mainRun] at h
    cases h
    exact hf
  | cons c s ih =>
    intro st st1 h hf
    simp only [mainRun] at h
    cases hv : V.index_of c with
    | none =>
      simp only [hv] at h
      exact Except.noConfusion h
    | some v =>
      simp only [hv] at h
      by_cases hig : V.should_ignore v = true
      · rw [if_pos hig] at h
        exact ih _ _ h (padFree_upd V st.idx st.lvi v hf (hip v hig))
      · rw [if_neg hig] at h
        by_cases hsp : V.is_special_character v = true
        · rw [if_pos hsp] at h
          simp at h
        · rw [if_neg hsp] at h
          have hvp : V.is_padding_symbol v = false := by
            cases hpv : V.is_padding_symbol v
            · rfl
            · exact absurd (hPS v hpv) hsp
          by_cases hfl : st.lvi + 1 = C.encoded_block_size
          · rw [if_pos hfl] at h
            exact ih _ _ h (padFree_upd V st.idx st.lvi v hf hvp)
          · rw [if_neg hfl] at h
            exact ih _ _ h (padFree_upd V st.idx st.lvi v hf hvp)

theorem mainRun_lvi_lt (V : CodecVariant) (C : Codec) :
    ∀ (s : List Char) (st st1 : DecSt) (o : Option (List Char)),
    mainRun V C s st = .ok (st1, o) →
    st.lvi < C.encoded_block_size → st1.lvi < C.encoded_block_size := by
  intro s
  induction s with
  | nil =>
    intro st st1 o h hl
    simp only [mainRun] at h
    cases h
    exact hl
  | cons c s ih =>
    intro st st1 o h hl
    simp only [mainRun] at h
    cases hv : V.index_of c with
    | none =>
      simp only [hv] at h
      exact Except.noConfusion h
    | some v =>
      simp only [hv] at h
      by_cases hig : V.should_ignore v = true
      · rw [if_pos hig] at h
        exact ih _ _ _ h hl
      · rw [if_neg hig] at h
        by_cases hsp : V.is_special_character v = true
        · rw [if_pos hsp] at h
          cases h
          exact hl
        · rw [if_neg hsp] at h
          by_cases hfl : st.lvi + 1 = C.encoded_block_size
          · rw [if_pos hfl] at h
            exact ih _ _ _ h C.encoded_block_size_pos
          · rw [if_neg hfl] at h
            exact ih _ _ _ h (by show st.lvi + 1 < C.encoded_block_size; omega)

theorem mainRun_no_abort (V : CodecVariant) (C : Codec) :
    ∀ (s : List Char) (st : DecSt), mainRun V C s st ≠ .error .abort := by
  intro s
  induction s with
  | nil => intro st h; cases h
  | cons c s ih =>
    intro st h
    simp only [mainRun] at h
    cases hv : V.index_of c with
    | none => simp only [hv] at h; simp at h
    | some v =>
      simp only [hv] at h
      by_cases hig : V.should_ignore v = true
      · rw [if_pos hig] at h; exact ih _ h
      · rw [if_neg hig] at h
        by_cases hsp : V.is_special_character v = true
        · rw [if_pos hsp] at h; simp at h
        · rw [if_neg hsp] at h
          by_cases hfl : st.lvi + 1 = C.encoded_block_size
          · rw [if_pos hfl] at h; exact ih _ h
          · rw [if_neg hfl] at h; exact ih _ h

theorem padScan_no_abort (V : CodecVariant) (C : Codec) :
    ∀ (s : List Char) (f : Nat → Nat) (l : Nat), padScan V C s f l ≠ .error .abort := by
  intro s
  induction s with
  | nil => intro f l h; cases h
  | cons c s ih =>
    intro f l h
    simp only [padScan] at h
    cases hv : V.index_of c with
    | none => simp only [hv] at h; simp at h
    | some v =>
      simp only [hv] at h
      by_cases he : V.is_eof v = true
      · rw [if_pos he] at h; simp at h
      · rw [if_neg he] at h
        by_cases hp : V.is_padding_symbol v = false
        · rw [if_pos hp] at h; simp at h
        · rw [if_neg hp] at h
          by_cases ho : C.encoded_block_size < l + 1
          · rw [if_pos ho] at h; simp at h
          · rw [if_neg ho] at h; exact ih _ _ h

theorem mainRun_data_chunk (V : CodecVariant) (C : Codec)
    (hPS : ∀ v, V.is_padding_symbol v = true → V.is_special_character v = true) :
    ∀ {cs : List Char} {vs : List Nat}, List.Forall₂ (isData V) cs vs →
    ∀ (rest : List Char) (f : Nat → Nat) (lvi : Nat) (out : List Nat),
    padFreeIdx V f → lvi < C.encoded_block_size →
    lvi + cs.length ≤ C.encoded_block_size →
    (lvi + cs.length < C.encoded_block_size →
      ∃ f2, padFreeIdx V f2 ∧ readIdx f2 (lvi + cs.length) = readIdx f lvi ++ vs ∧
        mainRun V C (cs ++ rest) ⟨f, lvi, out⟩ = mainRun V C rest ⟨f2, lvi + cs.length, out⟩) ∧
    (lvi + cs.length = C.encoded_block_size →
      ∃ f2, padFreeIdx V f2 ∧
        mainRun V C (cs ++ rest) ⟨f, lvi, out⟩ =
          mainRun V C rest ⟨f2, 0, out ++ C.decode_block (readIdx f lvi ++ vs)⟩) := by
  intro cs vs hfa
  induction hfa with
  | nil =>
    intro rest f lvi out hf hlt hle
    constructor
    · intro h
      exact ⟨f, hf, by simp, by simp⟩
    · intro h
      exfalso
      simp at h
      omega
  | @cons c v cs' vs' hcv hfa ih =>
    intro rest f lvi out hf hlt hle
    obtain ⟨hvc, hig, hsp⟩ := hcv
    have hvp : V.is_padding_symbol v = false := by
      cases hpv : V.is_padding_symbol v
      · rfl
      · exact absurd (hPS v hpv) (ne_true_of_eq_false hsp)
    have hf1 : padFreeIdx V (upd f lvi v) := padFree_upd V f lvi v hf hvp
    simp only [List.cons_append, mainRun, hvc, hig, hsp, Bool.false_eq_true, if_false,
      List.length_cons]
    by_cases hfl : lvi + 1 = C.encoded_block_size
    · have hcs' : cs' = [] := by
        have h1 : cs'.length = 0 := by
          simp only [List.length_cons] at hle
          omega
        exact List.length_eq_zero.mp h1
      subst hcs'
      have hvs' : vs' = [] := by cases hfa; rfl
      subst hvs'
      rw [if_pos hfl]
      constructor
      · intro h
        exfalso
        simp only [List.length_nil] at h
        omega
      · intro h
        refine ⟨upd f lvi v, hf1, ?_⟩
        have hread : readIdx (upd f lvi v) C.encoded_block_size = readIdx f lvi ++ [v] := by
          rw [← hfl]
          exact readIdx_upd_snoc f lvi v
        rw [hread]
        simp
    · rw [if_neg hfl]
      have hlt1 : lvi + 1 < C.encoded_block_size := by omega
      have hread : readIdx (upd f lvi v) (lvi + 1) = readIdx f lvi ++ [v] := readIdx_upd_snoc f lvi v
      have hle1 : (lvi + 1) + cs'.length ≤ C.encoded_block_size := by
        simp only [List.length_cons] at hle
        omega
      have IH := ih rest (upd f lvi v) (lvi + 1) out hf1 hlt1 hle1
      constructor
      · intro h
        have h' : (lvi + 1) + cs'.length < C.encoded_block_size := by omega
        obtain ⟨f2, hf2, hr2, he2⟩ := IH.1 h'
        have harith : lvi + (cs'.length + 1) = (lvi + 1) + cs'.length := by omega
        refine ⟨f2, hf2, ?_, ?_⟩
        · rw [harith, hr2, hread, List.append_assoc, List.singleton_append]
        · rw [harith]
          exact he2
      · intro h
        have h' : (lvi + 1) + cs'.length = C.encoded_block_size := by omega
        obtain ⟨f2, hf2, he2⟩ := IH.2 h'
        rw [hread, List.append_assoc, List.singleton_append] at he2
        exact ⟨f2, hf2, he2⟩

theorem mainRun_block (V : CodecVariant) (C : Codec)
    (hPS : ∀ v, V.is_padding_symbol v = true → V.is_special_character v = true)
    {cs : List Char} {vs : List Nat} (hfa : List.Forall₂ (isData V) cs vs)
    (rest : List Char) (f : Nat → Nat) (out : List Nat)
    (hf : padFreeIdx V f) (hlen : vs.length = C.encoded_block_size) :
    ∃ f2, padFreeIdx V f2 ∧
      mainRun V C (cs ++ rest) ⟨f, 0, out⟩ =
        mainRun V C rest ⟨f2, 0, out ++ C.decode_block vs⟩ := by
  have hlcs : cs.length = vs.length := List.Forall₂.length_eq hfa
  have h := (mainRun_data_chunk V C hPS hfa rest f 0 out hf C.encoded_block_size_pos
    (by omega)).2 (by omega)
  obtain ⟨f2, hf2, he⟩ := h
  rw [readIdx_zero, List.nil_append] at he
  exact ⟨f2, hf2, he⟩

theorem padScan_pads (V : CodecVariant) (C : Codec) :
    ∀ (w : List Char) (f : Nat → Nat) (l : Nat),
    (∀ a ∈ w, ∃ u, V.index_of a = some u ∧ V.is_eof u = false ∧ V.is_padding_symbol u = true) →
    l ≤ C.encoded_block_size →
    (l + w.length ≤ C.encoded_block_size →
      ∃ f2, (∀ n, n ≤ l → readIdx f2 n = readIdx f n) ∧
        padScan V C w f l = .ok (f2, l + w.length)) ∧
    (C.encoded_block_size < l + w.length → padScan V C w f l = .error .padding) := by
  intro w
  induction w with
  | nil =>
    intro f l hw hl
    constructor
    · intro h
      exact ⟨f, fun n _ => rfl, by simp [padScan]⟩
    · intro h
      exfalso
      simp at h
      omega
  | cons a w ih =>
    intro f l hw hl
    obtain ⟨u, hu, hue, hup⟩ := hw a (List.mem_cons_self a w)
    have hwrest : ∀ b ∈ w, ∃ u, V.index_of b = some u ∧ V.is_eof u = false ∧
        V.is_padding_symbol u = true :=
      fun b hb => hw b (List.mem_cons_of_mem a hb)
    simp only [padScan, hu, List.length_cons]
    rw [if_neg (ne_true_of_eq_false hue), if_neg (by simp [hup])]
    constructor
    · intro h
      rw [if_neg (by omega)]
      have IH := (ih (upd f l u) (l + 1) hwrest (by omega)).1 (by omega)
      obtain ⟨f2, hpres, heq⟩ := IH
      refine ⟨f2, ?_, ?_⟩
      · intro n hn
        rw [hpres n (by omega), readIdx_upd_of_le f l u n hn]
      · rw [heq]
        have harith : l + 1 + w.length = l + (w.length + 1) := by omega
        rw [harith]
    · intro h
      by_cases hEl : C.encoded_block_size < l + 1
      · rw [if_pos hEl]
      · rw [if_neg hEl]
        exact (ih (upd f l u) (l + 1) hwrest (by omega)).2 (by omega)

theorem padScan_reject (V : CodecVariant) (C : Codec) :
    ∀ (w t : List Char) (c : Char) (v : Nat) (f : Nat → Nat) (l : Nat),
    (∀ a ∈ w, ∃ u, V.index_of a = some u ∧ V.is_eof u = false ∧ V.is_padding_symbol u = true) →
    V.index_of c = some v → V.is_eof v = false → V.is_padding_symbol v = false →
    padScan V C (w ++ c :: t) f l = .error .padding := by
  intro w
  induction w with
  | nil =>
    intro t c v f l hw hc hce hcp
    simp only [List.nil_append, padScan, hc]
    rw [if_neg (ne_true_of_eq_false hce), if_pos hcp]
  | cons a w ih =>
    intro t c v f l hw hc hce hcp
    obtain ⟨u, hu, hue, hup⟩ := hw a (List.mem_cons_self a w)
    simp only [List.cons_append, padScan, hu]
    rw [if_neg (ne_true_of_eq_false hue), if_neg (by simp [hup])]
    by_cases hEl : C.encoded_block_size < l + 1
    · rw [if_pos hEl]
    · rw [if_neg hEl]
      exact ih t c v _ _ (fun b hb => hw b (List.mem_cons_of_mem a hb)) hc hce hcp

theorem padScan_eof_cut (V : CodecVariant) (C : Codec) (e : Char) (v : Nat)
    (hv : V.index_of e = some v) (hve : V.is_eof v = true) :
    ∀ (w t : List Char) (f : Nat → Nat) (l : Nat),
    padScan V C (w ++ e :: t) f l = padScan V C (w ++ [e]) f l := by
  intro w
  induction w with
  | nil =>
    intro t f l
    simp only [List.nil_append, padScan, hv, if_pos hve]
  | cons a w ih =>
    intro t f l
    simp only [List.cons_append, padScan]
    cases hva : V.index_of a with
    | none => rfl
    | some u =>
      by_cases hue : V.is_eof u = true
      · simp only [if_pos hue]
      · simp only [if_neg hue]
        by_cases hup : V.is_padding_symbol u = false
        · simp only [if_pos hup]
        · simp only [if_neg hup]
          by_cases hEl : C.encoded_block_size < l + 1
          · simp only [if_pos hEl]
          · simp only [if_neg hEl]
            exact ih t _ _

/-- The number of characters of `cs` that the decode loop counts as data or
special, i.e. excluding ignorable and invalid ones. -/
def liveCount (V : CodecVariant) (cs : List Char) : Nat :=
  List.countP (fun c => match V.index_of c with
    | some v => !V.should_ignore v
    | none => false) cs

theorem mainRun_nonspecial (V : CodecVariant) (C : Codec)
    (hip : ∀ v, V.should_ignore v = true → V.is_padding_symbol v = false)
    (hPS : ∀ v, V.is_padding_symbol v = true → V.is_special_character v = true) :
    ∀ (cs : List Char) (f : Nat → Nat) (lvi : Nat) (out : List Nat),
    (∀ a ∈ cs, ∃ v, V.index_of a = some v ∧ V.is_special_character v = false) →
    padFreeIdx V f → lvi < C.encoded_block_size →
    ∃ f2 out2, padFreeIdx V f2 ∧
      mainRun V C cs ⟨f, lvi, out⟩ =
        .ok (⟨f2, (lvi + liveCount V cs) % C.encoded_block_size, out2⟩, none) := by
  intro cs
  induction cs with
  | nil =>
    intro f lvi out hall hf hlt
    refine ⟨f, out, hf, ?_⟩
    simp [mainRun, liveCount, Nat.mod_eq_of_lt hlt]
  | cons a cs ih =>
    intro f lvi out hall hf hlt
    obtain ⟨v, hv, hsp⟩ := hall a (List.mem_cons_self a cs)
    have hrest : ∀ b ∈ cs, ∃ v, V.index_of b = some v ∧ V.is_special_character v = false :=
      fun b hb => hall b (List.mem_cons_of_mem a hb)
    simp only [mainRun, hv]
    by_cases hig : V.should_ignore v = true
    · rw [if_pos hig]
      obtain ⟨f2, out2, hf2, he⟩ :=
        ih (upd f lvi v) lvi out hrest (padFree_upd V f lvi v hf (hip v hig)) hlt
      refine ⟨f2, out2, hf2, ?_⟩
      rw [he]
      have hcnt : liveCount V (a :: cs) = liveCount V cs := by
        simp [liveCount, List.countP_cons, hv, hig]
      rw [hcnt]
    · have hig' := eq_false_of_ne_true hig
      have hvp : V.is_padding_symbol v = false := by
        cases hpv : V.is_padding_symbol v
        · rfl
        · exact absurd (hPS v hpv) (ne_true_of_eq_false hsp)
      rw [if_neg hig, if_neg (ne_true_of_eq_false hsp)]
      have hcnt : liveCount V (a :: cs) = liveCount V cs + 1 := by
        simp [liveCount, List.countP_cons, hv, hig']
      by_cases hfl : lvi + 1 = C.encoded_block_size
      · rw [if_pos hfl]
        obtain ⟨f2, out2, hf2, he⟩ :=
          ih (upd f lvi v) 0 _ hrest (padFree_upd V f lvi v hf hvp) C.encoded_block_size_pos
        refine ⟨f2, out2, hf2, ?_⟩
        rw [he, hcnt]
        have harith : lvi + (liveCount V cs + 1) = C.encoded_block_size + liveCount V cs := by
          omega
        rw [harith, Nat.add_mod_left, Nat.zero_add]
      · rw [if_neg hfl]
        obtain ⟨f2, out2, hf2, he⟩ :=
          ih (upd f lvi v) (lvi + 1) out hrest (padFree_upd V f lvi v hf hvp) (by omega)
        refine ⟨f2, out2, hf2, ?_⟩
        rw [he, hcnt]
        have harith : lvi + 1 + liveCount V cs = lvi + (liveCount V cs + 1) := by omega
        rw [harith]

theorem encodeMain_step (C : Codec) (src : List Nat) (h : C.binary_block_size ≤ src.length) :
    encodeMain C src =
      (C.encode_block (src.take C.binary_block_size)
          ++ (encodeMain C (src.drop C.binary_block_size)).1,
        (encodeMain C (src.drop C.binary_block_size)).2) := by
  rw [encodeMain]
  simp only [dif_pos h]

theorem encodeMain_small (C : Codec) (src : List Nat) (h : ¬ C.binary_block_size ≤ src.length) :
    encodeMain C src = ([], src) := by
  rw [encodeMain]
  simp only [dif_neg h]

theorem encodeMain_rem (C : Codec) :
    ∀ (n : Nat) (src : List Nat), src.length ≤ n →
    (encodeMain C src).2.length < C.binary_block_size := by
  intro n
  induction n with
  | zero =>
    intro src hn
    have h0 : src = [] := List.length_eq_zero.mp (by omega)
    subst h0
    have hB := C.binary_block_size_pos
    rw [encodeMain_small C [] (by simp; omega)]
    exact C.binary_block_size_pos
  | succ n ih =>
    intro src hn
    by_cases h : C.binary_block_size ≤ src.length
    · rw [encodeMain_step C src h]
      have hB := C.binary_block_size_pos
      exact ih (src.drop C.binary_block_size)
        (by simp only [List.length_drop]; omega)
    · rw [encodeMain_small C src h]
      show src.length < C.binary_block_size
      omega

theorem rt_encodeMain (V : CodecVariant) (C : Codec)
    (hPS : ∀ v, V.is_padding_symbol v = true → V.is_special_character v = true)
    (hblock : ∀ b, b.length = C.binary_block_size → (∀ x ∈ b, x < 256) →
      ∃ vs, List.Forall₂ (isData V) (C.encode_block b) vs ∧
        vs.length = C.encoded_block_size ∧ C.decode_block vs = b) :
    ∀ (n : Nat) (src : List Nat), src.length ≤ n → (∀ x ∈ src, x < 256) →
    ∀ (f : Nat → Nat) (out : List Nat) (rest : List Char),
    padFreeIdx V f →
    ∃ f2 pre, padFreeIdx V f2 ∧ src = pre ++ (encodeMain C src).2 ∧
      mainRun V C ((encodeMain C src).1 ++ rest) ⟨f, 0, out⟩ =
        mainRun V C rest ⟨f2, 0, out ++ pre⟩ := by
  intro n
  induction n with
  | zero =>
    intro src hn hb f out rest hf
    have h0 : src = [] := List.length_eq_zero.mp (by omega)
    subst h0
    have hB := C.binary_block_size_pos
    rw [encodeMain_small C [] (by simp; omega)]
    exact ⟨f, [], hf, rfl, by simp⟩
  | succ n ih =>
    intro src hn hb f out rest hf
    by_cases h : C.binary_block_size ≤ src.length
    · rw [encodeMain_step C src h]
      have htake_len : (src.take C.binary_block_size).length = C.binary_block_size := by
        simp only [List.length_take]
        omega
      have htb : ∀ x ∈ src.take C.binary_block_size, x < 256 :=
        fun x hx => hb x (List.mem_of_mem_take hx)
      obtain ⟨vs, hfa, hvslen, hdec⟩ := hblock _ htake_len htb
      obtain ⟨f1, hf1, he1⟩ := mainRun_block V C hPS hfa
        ((encodeMain C (src.drop C.binary_block_size)).1 ++ rest) f out hf hvslen
      have hdb : ∀ x ∈ src.drop C.binary_block_size, x < 256 :=
        fun x hx => hb x (List.mem_of_mem_drop hx)
      have hB := C.binary_block_size_pos
      have hdn : (src.drop C.binary_block_size).length ≤ n := by
        simp only [List.length_drop]
        omega
      obtain ⟨f2, pre, hf2, hpre, he2⟩ :=
        ih (src.drop C.binary_block_size) hdn hdb f1 (out ++ C.decode_block vs) rest hf1
      refine ⟨f2, src.take C.binary_block_size ++ pre, hf2, ?_, ?_⟩
      · conv_lhs => rw [← List.take_append_drop C.binary_block_size src]
        conv_lhs => rw [hpre]
        rw [List.append_assoc]
      · rw [List.append_assoc, he1, he2, hdec, List.append_assoc]
    · rw [encodeMain_small C src h]
      exact ⟨f, [], hf, by simp, by simp⟩

/-- Modelled from the spec: the behavioral contracts of the two collaborator
roles that the spec assumes for the round-trip property.  Padding symbols are
special and distinct from ignorable values and from the zero-initialised
buffer entries; a variant that requires padding also generates it; a full
block encodes to `encoded_block_size` data symbols that `decode_block` maps
back to the original bytes; a partial block encodes to a shorter nonempty run
of data symbols that `decode_tail` inverts; `pad` emits only padding symbols
and, when the variant generates padding, exactly fills the final block (and
emits nothing otherwise). -/
structure Contracts (C : Codec) (V : CodecVariant) : Prop where
  pad_special : ∀ v, V.is_padding_symbol v = true → V.is_special_character v = true
  ign_not_pad : ∀ v, V.should_ignore v = true → V.is_padding_symbol v = false
  zero_not_pad : V.is_padding_symbol 0 = false
  req_gen : V.requires_padding = true → V.generates_padding = true
  block_ok : ∀ b, b.length = C.binary_block_size → (∀ x ∈ b, x < 256) →
    ∃ vs, List.Forall₂ (isData V) (C.encode_block b) vs ∧
      vs.length = C.encoded_block_size ∧ C.decode_block vs = b
  tail_ok : ∀ r, 0 < r.length → r.length < C.binary_block_size → (∀ x ∈ r, x < 256) →
    ∃ vs, List.Forall₂ (isData V) (C.encode_tail r) vs ∧
      0 < vs.length ∧ vs.length < C.encoded_block_size ∧ C.decode_tail vs = r
  pad_all : ∀ n a, a ∈ C.pad n → isPadChar V a
  pad_len : ∀ r : List Nat, 0 < r.length → r.length < C.binary_block_size →
    V.generates_padding = true →
    (C.encode_tail r).length + (C.pad r.length).length = C.encoded_block_size
  pad_none : V.generates_padding = false → ∀ n, C.pad n = []

theorem decodePost_none_zero (V : CodecVariant) (C : Codec) (f : Nat → Nat) (out : List Nat)
    (hf : padFreeIdx V f) :
    decodePost V C (.ok (⟨f, 0, out⟩, none)) = .ok out := by
  unfold decodePost scanPhase finishPhase
  simp [hf 0]

theorem mainRun_nil (V : CodecVariant) (C : Codec) (st : DecSt) :
    mainRun V C [] st = .ok (st, none) := rfl

theorem decodePost_ok (V : CodecVariant) (C : Codec) (st : DecSt) (orest : Option (List Char)) :
    decodePost V C (.ok (st, orest)) = finishPhase V C st (scanPhase V C st (orest.getD [])) := rfl

theorem finishPhase_ok_tail (V : CodecVariant) (C : Codec) (f2 : Nat → Nat) (lidx : Nat)
    (st : DecSt) (h0 : st.lvi ≠ 0)
    (hreq : ¬(V.requires_padding = true ∧ lidx ≠ C.encoded_block_size))
    (hlt : st.lvi < C.encoded_block_size) :
    finishPhase V C st (.ok (f2, lidx)) = .ok (st.out ++ C.decode_tail (readIdx f2 st.lvi)) := by
  simp only [finishPhase]
  rw [if_pos h0, if_neg hreq, if_neg (by omega)]

theorem roundtrip_decode_encode (C : Codec) (V : CodecVariant) (hCon : Contracts C V)
    (b : List Nat) (hb : ∀ x ∈ b, x < 256) :
    ∃ cs, encode C b = .ok cs ∧ decode V C cs = .ok b := by
  have hPS := hCon.pad_special
  have hE := C.encoded_block_size_pos
  have hB := C.binary_block_size_pos
  have hinit : padFreeIdx V (fun _ => 0) := padFree_init V hCon.zero_not_pad
  have hrem : (encodeMain C b).2.length < C.binary_block_size :=
    encodeMain_rem C b.length b (Nat.le_refl _)
  by_cases hr0 : (encodeMain C b).2.length = 0
  · -- no tail: output is the full blocks only
    have henc : encode C b = .ok (encodeMain C b).1 := by
      simp only [encode, hr0]
      simp
    refine ⟨(encodeMain C b).1, henc, ?_⟩
    have hrnil : (encodeMain C b).2 = [] := List.length_eq_zero.mp hr0
    obtain ⟨f1, pre, hf1, hpre, he1⟩ := rt_encodeMain V C hPS hCon.block_ok b.length b
      (Nat.le_refl _) hb (fun _ => 0) [] [] hinit
    have hpre_b : b = pre := by rw [hpre, hrnil, List.append_nil]
    unfold decode
    show decodePost V C (mainRun V C (encodeMain C b).1 ⟨fun _ => 0, 0, []⟩) = .ok b
    rw [← List.append_nil (encodeMain C b).1, he1, mainRun_nil, List.nil_append]
    rw [decodePost_none_zero V C f1 pre hf1]
    rw [hpre_b]
  · -- tail present: encode appends the tail symbols and padding
    obtain ⟨f1, pre, hf1, hpre, he1⟩ := rt_encodeMain V C hPS hCon.block_ok b.length b
      (Nat.le_refl _) hb (fun _ => 0) []
      (C.encode_tail (encodeMain C b).2 ++ C.pad (encodeMain C b).2.length) hinit
    have henc : encode C b =
        .ok ((encodeMain C b).1 ++ C.encode_tail (encodeMain C b).2
          ++ C.pad (encodeMain C b).2.length) := by
      simp only [encode]
      rw [if_pos hr0, if_neg (by omega)]
    refine ⟨_, henc, ?_⟩
    have hrb : ∀ x ∈ (encodeMain C b).2, x < 256 := by
      intro x hx
      refine hb x ?_
      rw [hpre]
      exact List.mem_append_right pre hx
    obtain ⟨vs, hfa_t, hvs_pos, hvs_lt, hdt⟩ :=
      hCon.tail_ok (encodeMain C b).2 (by omega) hrem hrb
    have hlcs : (C.encode_tail (encodeMain C b).2).length = vs.length :=
      List.Forall₂.length_eq hfa_t
    have hchunk := (mainRun_data_chunk V C hPS hfa_t (C.pad (encodeMain C b).2.length)
      f1 0 pre hf1 hE (by omega)).1 (by omega)
    obtain ⟨f3, hf3, hread3, he3⟩ := hchunk
    rw [readIdx_zero, List.nil_append] at hread3
    have hk : 0 + (C.encode_tail (encodeMain C b).2).length = vs.length := by omega
    rw [hk] at hread3 he3
    unfold decode
    show decodePost V C (mainRun V C ((encodeMain C b).1 ++ C.encode_tail (encodeMain C b).2
      ++ C.pad (encodeMain C b).2.length) ⟨fun _ => 0, 0, []⟩) = .ok b
    rw [List.append_assoc, he1, List.nil_append, he3]
    cases hgen : V.generates_padding with
    | false =>
      have hreq : V.requires_padding = false := by
        cases hrq : V.requires_padding
        · rfl
        · exact absurd (hCon.req_gen hrq) (ne_true_of_eq_false hgen)
      rw [hCon.pad_none hgen, mainRun_nil, decodePost_ok]
      have hsc : scanPhase V C ⟨f3, vs.length, pre⟩ ((none : Option (List Char)).getD [])
          = .ok (f3, vs.length) := by
        unfold scanPhase
        rw [if_neg (by show ¬ V.is_padding_symbol (f3 vs.length) = true
                       rw [hf3 vs.length]; exact Bool.false_ne_true)]
      rw [hsc]
      rw [finishPhase_ok_tail V C f3 vs.length ⟨f3, vs.length, pre⟩
        (by show vs.length ≠ 0; omega)
        (by intro hand; rw [hreq] at hand; exact Bool.false_ne_true hand.1)
        (by show vs.length < C.encoded_block_size; omega)]
      show Except.ok (pre ++ C.decode_tail (readIdx f3 vs.length)) = Except.ok b
      rw [hread3, hdt, ← hpre]
    | true =>
      have hpl := hCon.pad_len (encodeMain C b).2 (by omega) hrem hgen
      cases hpad : C.pad (encodeMain C b).2.length with
      | nil =>
        exfalso
        rw [hpad] at hpl
        simp at hpl
        omega
      | cons p0 prest =>
        obtain ⟨pv, hpv, hpig, hpsp, hppad, hpeof⟩ :=
          hCon.pad_all (encodeMain C b).2.length p0 (by rw [hpad]; exact List.mem_cons_self p0 prest)
        simp only [mainRun, hpv]
        rw [if_neg (ne_true_of_eq_false hpig), if_pos hpsp]
        rw [decodePost_ok]
        have hprest_pads : ∀ a ∈ prest, ∃ u, V.index_of a = some u ∧ V.is_eof u = false ∧
            V.is_padding_symbol u = true := by
          intro a ha
          obtain ⟨u, hu, hui, hus, hup, hue⟩ :=
            hCon.pad_all (encodeMain C b).2.length a (by rw [hpad]; exact List.mem_cons_of_mem p0 ha)
          exact ⟨u, hu, hue, hup⟩
        have hplen : vs.length + 1 + prest.length = C.encoded_block_size := by
          rw [hpad] at hpl
          simp only [List.length_cons] at hpl
          omega
        obtain ⟨f4, hpres4, hs4⟩ := (padScan_pads V C prest (upd f3 vs.length pv)
          (vs.length + 1) hprest_pads (by omega)).1 (by omega)
        have hsc : scanPhase V C ⟨upd f3 vs.length pv, vs.length, pre⟩
            ((some prest).getD []) = .ok (f4, vs.length + 1 + prest.length) := by
          unfold scanPhase
          rw [if_pos (by show V.is_padding_symbol (upd f3 vs.length pv vs.length) = true
                         rw [upd_self]; exact hppad)]
          exact hs4
        rw [hsc]
        rw [finishPhase_ok_tail V C f4 (vs.length + 1 + prest.length)
          ⟨upd f3 vs.length pv, vs.length, pre⟩
          (by show vs.length ≠ 0; omega)
          (by intro hand; exact hand.2 hplen)
          (by show vs.length < C.encoded_block_size; omega)]
        show Except.ok (pre ++ C.decode_tail (readIdx f4 vs.length)) = Except.ok b
        have hread4 : readIdx f4 vs.length = vs := by
          rw [hpres4 vs.length (by omega),
            readIdx_upd_of_le f3 vs.length pv vs.length (Nat.le_refl _), hread3]
        rw [hread4, hdt, ← hpre]

theorem decode_no_abort (V : CodecVariant) (C : Codec) (input : List Char) :
    decode V C input ≠ .error .abort := by
  unfold decode
  cases hm : mainRun V C input initSt with
  | error e =>
    intro h
    have he : e = .abort := Except.error.inj h
    subst he
    exact mainRun_no_abort V C input initSt hm
  | ok p =>
    obtain ⟨st, orest⟩ := p
    have hlvi : st.lvi < C.encoded_block_size :=
      mainRun_lvi_lt V C input initSt st orest hm C.encoded_block_size_pos
    rw [decodePost_ok]
    cases hs : scanPhase V C st (orest.getD []) with
    | error e =>
      have he : e ≠ .abort := by
        unfold scanPhase at hs
        by_cases hp : V.is_padding_symbol (st.idx st.lvi) = true
        · rw [if_pos hp] at hs
          intro hea
          subst hea
          exact padScan_no_abort V C _ _ _ hs
        · rw [if_neg hp] at hs
          exact absurd hs (by simp)
      intro h
      simp only [finishPhase] at h
      exact he (Except.error.inj h)
    | ok q =>
      obtain ⟨f2, lidx⟩ := q
      intro h
      simp only [finishPhase] at h
      by_cases h0 : st.lvi ≠ 0
      · rw [if_pos h0] at h
        by_cases hreq : V.requires_padding = true ∧ lidx ≠ C.encoded_block_size
        · rw [if_pos hreq] at h
          simp at h
        · rw [if_neg hreq, if_neg (by omega)] at h
          simp at h
      · rw [if_neg h0] at h
        simp at h

theorem c4_case_nopad (C : Codec) (V : CodecVariant) (n : Nat)
    (hgp : V.generates_padding = false) :
    n ≤ decoded_max_size C V (encoded_size C V n) ∧
    decoded_max_size C V (encoded_size C V n) ≤ n + (C.binary_block_size - 1) := by
  have hB := C.binary_block_size_pos
  have hE := C.encoded_block_size_pos
  rw [encSize_nopad_eq C V n hgp]
  set m := (n * C.encoded_block_size + C.binary_block_size - 1) / C.binary_block_size with hm
  have hmb : n * C.encoded_block_size ≤ C.binary_block_size * m ∧
      C.binary_block_size * m ≤ n * C.encoded_block_size + C.binary_block_size - 1 :=
    roundup_bounds (n * C.encoded_block_size) C.binary_block_size hB
  have hkey : n * C.encoded_block_size ≤ m * C.binary_block_size := by
    rw [Nat.mul_comm m _]
    exact hmb.1
  have hkey2 : m * C.binary_block_size ≤ n * C.encoded_block_size + C.binary_block_size - 1 := by
    rw [Nat.mul_comm m _]
    exact hmb.2
  have hBE : C.binary_block_size + C.encoded_block_size
      ≤ C.binary_block_size * C.encoded_block_size + 1 :=
    add_le_mul_succ _ _ hB hE
  have hexp : (n + C.binary_block_size) * C.encoded_block_size
      = n * C.encoded_block_size + C.binary_block_size * C.encoded_block_size := by ring
  cases hrp : V.requires_padding with
  | true =>
    rw [decMax_req_eq C V _ hrp]
    constructor
    · rw [Nat.le_div_iff_mul_le hE]
      exact hkey
    · have hlt : m * C.binary_block_size / C.encoded_block_size < n + C.binary_block_size := by
        rw [Nat.div_lt_iff_lt_mul hE, hexp]
        omega
      omega
  | false =>
    rw [decMax_noreq_eq C V _ hrp]
    constructor
    · rw [Nat.le_div_iff_mul_le hE]
      omega
    · have hlt : (m * C.binary_block_size + C.encoded_block_size - 1) / C.encoded_block_size
          < n + C.binary_block_size := by
        rw [Nat.div_lt_iff_lt_mul hE, hexp]
        omega
      omega

theorem c4_case_pad (C : Codec) (V : CodecVariant) (n : Nat)
    (hgp : V.generates_padding = true) :
    n ≤ decoded_max_size C V (encoded_size C V n) ∧
    decoded_max_size C V (encoded_size C V n) ≤ n + (C.binary_block_size - 1) := by
  have hB := C.binary_block_size_pos
  have hE := C.encoded_block_size_pos
  rw [encSize_pad_eq C V n hgp]
  set q := (n + C.binary_block_size - 1) / C.binary_block_size with hq
  have hqb : n ≤ C.binary_block_size * q ∧ C.binary_block_size * q ≤ n + C.binary_block_size - 1 :=
    roundup_bounds n C.binary_block_size hB
  have hqe : q * C.encoded_block_size * C.binary_block_size / C.encoded_block_size
      = q * C.binary_block_size := by
    rw [Nat.mul_right_comm]
    exact Nat.mul_div_cancel _ hE
  have hqcomm : q * C.binary_block_size = C.binary_block_size * q := Nat.mul_comm _ _
  cases hrp : V.requires_padding with
  | true =>
    rw [decMax_req_eq C V _ hrp, hqe]
    omega
  | false =>
    rw [decMax_noreq_eq C V _ hrp]
    have h2 : q * C.encoded_block_size * C.binary_block_size + C.encoded_block_size - 1
        = C.encoded_block_size * (q * C.binary_block_size) + (C.encoded_block_size - 1) := by
      rw [show q * C.encoded_block_size * C.binary_block_size
          = C.encoded_block_size * (q * C.binary_block_size) by ring]
      omega
    rw [h2, Nat.mul_add_div hE,
      Nat.div_eq_of_lt (show C.encoded_block_size - 1 < C.encoded_block_size by omega),
      Nat.add_zero]
    omega

theorem char_toNat_ofNat (x : Nat) (h : x < 256) : (Char.ofNat x).toNat = x := by
  unfold Char.toNat Char.ofNat
  rw [dif_pos (Or.inl (by omega : x < 0xd800))]
  simp [Char.ofNatAux, UInt32.toNat, BitVec.toNat_ofNatLt]

/-- Modelled from the spec: a minimal collaborator pair (1-byte binary blocks,
1-symbol encoded blocks, no padding anywhere) used to exhibit a concrete
instance of the collaborator contracts. -/
def miniCodec : Codec where
  binary_block_size := 1
  encoded_block_size := 1
  binary_block_size_pos := Nat.one_pos
  encoded_block_size_pos := Nat.one_pos
  encode_block := fun b => b.map (fun x => Char.ofNat x)
  encode_tail := fun _ => []
  pad := fun _ => []
  decode_block := fun vs => vs
  decode_tail := fun vs => vs

/-- Modelled from the spec: the variant collaborator for `miniCodec`: every
character below 256 is a data symbol carrying its code point, nothing is
ignorable, special, padding, or an end marker, and padding is neither
required nor generated. -/
def miniVariant : CodecVariant where
  index_of := fun c => if c.toNat < 256 then some c.toNat else none
  should_ignore := fun _ => false
  is_special_character := fun _ => false
  is_padding_symbol := fun _ => false
  is_eof := fun _ => false
  requires_padding := false
  generates_padding := false

theorem miniContracts : Contracts miniCodec miniVariant := by
  constructor
  · intro v hv
    exact absurd hv Bool.false_ne_true
  · intro v _
    rfl
  · rfl
  · intro hv
    exact absurd hv Bool.false_ne_true
  · intro b hlen hbs
    obtain ⟨x, rfl⟩ : ∃ x, b = [x] := List.length_eq_one.mp hlen
    have hx256 : x < 256 := hbs x (List.mem_singleton_self x)
    refine ⟨[x], ?_, rfl, rfl⟩
    refine List.Forall₂.cons ⟨?_, rfl, rfl⟩ List.Forall₂.nil
    show miniVariant.index_of (Char.ofNat x) = some x
    simp only [miniVariant, char_toNat_ofNat x hx256]
    rw [if_pos hx256]
  · intro r h1 h2 _
    have h2' : r.length < 1 := h2
    exact absurd h1 (by omega)
  · intro n a ha
    exact absurd ha (List.not_mem_nil a)
  · intro r _ _ hg
    exact absurd hg Bool.false_ne_true
  · intro _ n
    rfl

theorem mainRun_ignore_step (V : CodecVariant) (C : Codec) (c : Char) (v : Nat)
    (rest : List Char) (st : DecSt)
    (hv : V.index_of c = some v) (hig : V.should_ignore v = true) :
    mainRun V C (c :: rest) st = mainRun V C rest ⟨upd st.idx st.lvi v, st.lvi, st.out⟩ := by
  simp only [mainRun, hv, if_pos hig]

theorem decodePost_upd_ignore (V : CodecVariant) (C : Codec)
    (hip : ∀ u, V.should_ignore u = true → V.is_padding_symbol u = false)
    (w : List Char) (f : Nat → Nat) (p : Nat) (out : List Nat) (v : Nat)
    (hf : padFreeIdx V f) (hig : V.should_ignore v = true) :
    decodePost V C (mainRun V C w ⟨upd f p v, p, out⟩) =
      decodePost V C (mainRun V C w ⟨f, p, out⟩) := by
  cases w with
  | nil =>
    rw [mainRun_nil, mainRun_nil, decodePost_ok, decodePost_ok]
    have h1 : scanPhase V C ⟨upd f p v, p, out⟩ ((none : Option (List Char)).getD [])
        = .ok (upd f p v, p) := by
      unfold scanPhase
      rw [if_neg (by
        show ¬ V.is_padding_symbol (upd f p v p) = true
        rw [upd_self, hip v hig]
        exact Bool.false_ne_true)]
    have h2 : scanPhase V C ⟨f, p, out⟩ ((none : Option (List Char)).getD [])
        = .ok (f, p) := by
      unfold scanPhase
      rw [if_neg (by
        show ¬ V.is_padding_symbol (f p) = true
        rw [hf p]
        exact Bool.false_ne_true)]
    rw [h1, h2]
    simp only [finishPhase]
    rw [readIdx_upd_of_le f p v p (Nat.le_refl p)]
  | cons a w =>
    simp only [mainRun]
    cases hva : V.index_of a with
    | none => rfl
    | some u =>
      simp only [upd_upd_same]

/-- Claim C2: for every byte buffer (of `unsigned char` values) and every
collaborator pair satisfying the spec's collaborator contracts, decoding the
encoded output succeeds and returns exactly the original bytes. -/
theorem c2_roundtrip (C : Codec) (V : CodecVariant) (hCon : Contracts C V)
    (b : List Nat) (hb : ∀ x ∈ b, x < 256) :
    ∃ cs, encode C b = .ok cs ∧ decode V C cs = .ok b :=
  roundtrip_decode_encode C V hCon b hb

/-- Witness for C2: the round-trip at a concrete buffer under the minimal
collaborator pair. -/
theorem c2_roundtrip_witness :
    ∃ cs, encode miniCodec [3, 200] = .ok cs ∧
      decode miniVariant miniCodec cs = .ok [3, 200] :=
  c2_roundtrip miniCodec miniVariant miniContracts [3, 200] (by decide)

/-- Claim C3: with padding, `encoded_size` rounds the binary size up to the
next multiple of the binary block size and scales by the block-size ratio,
yielding a whole number of encoded blocks; without padding it is the ceiling
`⌈N·E/B⌉`, computed as floor plus an indicator; and `encoded_size 0 = 0`. -/
theorem c3_encoded_size_formula (C : Codec) (V : CodecVariant) (n : Nat) :
    (V.generates_padding = true →
      encoded_size C V n
        = ((n + C.binary_block_size - 1) / C.binary_block_size) * C.encoded_block_size ∧
      C.encoded_block_size ∣ encoded_size C V n) ∧
    (V.generates_padding = false →
      encoded_size C V n
        = n * C.encoded_block_size / C.binary_block_size
          + (if n * C.encoded_block_size % C.binary_block_size ≠ 0 then 1 else 0) ∧
      encoded_size C V n
        = (n * C.encoded_block_size + C.binary_block_size - 1) / C.binary_block_size) ∧
    encoded_size C V 0 = 0 := by
  refine ⟨?_, ?_, ?_⟩
  · intro hgp
    refine ⟨encSize_pad_eq C V n hgp, ?_⟩
    rw [encSize_pad_eq C V n hgp]
    exact dvd_mul_left _ _
  · intro hgp
    constructor
    · unfold encoded_size
      rw [if_neg (by rw [hgp]; exact Bool.false_ne_true)]
    · exact encSize_nopad_eq C V n hgp
  · have hB := C.binary_block_size_pos
    cases hgp : V.generates_padding
    · rw [encSize_nopad_eq C V 0 hgp, Nat.zero_mul, Nat.zero_add]
      exact Nat.div_eq_of_lt (by omega)
    · rw [encSize_pad_eq C V 0 hgp, Nat.zero_add,
        Nat.div_eq_of_lt (by omega : C.binary_block_size - 1 < C.binary_block_size),
        Nat.zero_mul]

/-- Witness for C3 at the base64 block sizes (B = 3, E = 4). -/
theorem c3_encoded_size_formula_witness :
    encoded_size b64c b64v 7
      = ((7 + b64c.binary_block_size - 1) / b64c.binary_block_size) * b64c.encoded_block_size ∧
    encoded_size b64c b64v 0 = 0 :=
  ⟨((c3_encoded_size_formula b64c b64v 7).1 rfl).1,
    (c3_encoded_size_formula b64c b64v 0).2.2⟩

/-- Claim C4: for every binary size and every combination of the padding
flags, `decoded_max_size (encoded_size n)` never under-allocates and
over-allocates by at most `binary_block_size - 1` bytes. -/
theorem c4_decoded_max_size_bounds (C : Codec) (V : CodecVariant) (n : Nat) :
    n ≤ decoded_max_size C V (encoded_size C V n) ∧
    decoded_max_size C V (encoded_size C V n) ≤ n + (C.binary_block_size - 1) := by
  cases hgp : V.generates_padding
  · exact c4_case_nopad C V n hgp
  · exact c4_case_pad C V n hgp

/-- Claim C9: the two `abort()` branches are unreachable: the encode tail step
always sees a remainder strictly between 0 and the binary block size, and
decode never reaches its `abort()` (the cursor stays below the encoded block
size). -/
theorem c9_aborts_unreachable (C : Codec) (V : CodecVariant) :
    (∀ src : List Nat, (encodeMain C src).2.length < C.binary_block_size ∧
      ∃ out, encode C src = .ok out) ∧
    (∀ input : List Char, decode V C input ≠ .error .abort) := by
  constructor
  · intro src
    have hrem := encodeMain_rem C src.length src (Nat.le_refl _)
    refine ⟨hrem, ?_⟩
    simp only [encode]
    by_cases h0 : (encodeMain C src).2.length ≠ 0
    · rw [if_pos h0, if_neg (by omega)]
      exact ⟨_, rfl⟩
    · rw [if_neg h0]
      exact ⟨_, rfl⟩
  · exact decode_no_abort V C

/-- Claim C5, amended: inserting a character that classifies as ignorable at
any position the main block loop is still consuming (after a prefix the main
loop consumes without breaking on a special character) leaves the decode
outcome unchanged; but within the padding-validation scan an ignorable
character is rejected with a padding error. -/
theorem c5_insert_ignorable (V : CodecVariant) (C : Codec)
    (hip : ∀ u, V.should_ignore u = true → V.is_padding_symbol u = false)
    (hPS : ∀ u, V.is_padding_symbol u = true → V.is_special_character u = true)
    (hzp : V.is_padding_symbol 0 = false)
    (u w : List Char) (c : Char) (v : Nat) (st : DecSt)
    (hv : V.index_of c = some v) (hig : V.should_ignore v = true)
    (hie : V.is_eof v = false)
    (hrun : mainRun V C u initSt = .ok (st, none)) :
    decode V C (u ++ c :: w) = decode V C (u ++ w) ∧
    (∀ (t : List Char) (f : Nat → Nat) (l : Nat),
      padScan V C (c :: t) f l = .error .padding) := by
  constructor
  · unfold decode
    rw [mainRun_append V C u (c :: w) initSt, mainRun_append V C u w initSt, hrun]
    show decodePost V C (mainRun V C (c :: w) st) = decodePost V C (mainRun V C w st)
    rw [mainRun_ignore_step V C c v w st hv hig]
    have hfst : padFreeIdx V st.idx :=
      mainRun_padFree V C hip hPS u initSt st hrun (padFree_init V hzp)
    exact decodePost_upd_ignore V C hip w st.idx st.lvi st.out v hfst hig
  · intro t f l
    simp only [padScan, hv]
    rw [if_neg (ne_true_of_eq_false hie), if_pos (hip v hig)]

/-- Claim C6: once a padding symbol has begun the final block's padding, any
later character that classifies as neither a padding symbol nor the end
marker makes decode fail with a padding error. -/
theorem c6_nonpadding_after_padding (V : CodecVariant) (C : Codec) (input : List Char)
    (st : DecSt) (w t : List Char) (c : Char) (v : Nat)
    (hrun : mainRun V C input initSt = .ok (st, some (w ++ c :: t)))
    (hpad : V.is_padding_symbol (st.idx st.lvi) = true)
    (hw : ∀ a ∈ w, ∃ u, V.index_of a = some u ∧ V.is_eof u = false ∧
      V.is_padding_symbol u = true)
    (hc : V.index_of c = some v) (hce : V.is_eof v = false)
    (hcp : V.is_padding_symbol v = false) :
    decode V C input = .error .padding := by
  unfold decode
  rw [hrun, decodePost_ok]
  have hsc : scanPhase V C st ((some (w ++ c :: t)).getD []) = .error .padding := by
    unfold scanPhase
    rw [if_pos hpad]
    exact padScan_reject V C w t c v st.idx (st.lvi + 1) hw hc hce hcp
  rw [hsc]
  rfl

/-- Claim C7: under a padding-requiring variant, a decode whose pass ends
with data values accumulated in an incomplete final block fails with a
padding error unless the total consumed positions equal the encoded block
size; in particular, classified non-special input whose live length is not a
multiple of the encoded block size (and hence contains no padding) fails
with a padding error. -/
theorem c7_requires_padding_length (V : CodecVariant) (C : Codec)
    (hreq : V.requires_padding = true) :
    (∀ (input : List Char) (st : DecSt) (orest : Option (List Char))
        (f2 : Nat → Nat) (lidx : Nat),
      mainRun V C input initSt = .ok (st, orest) → st.lvi ≠ 0 →
      scanPhase V C st (orest.getD []) = .ok (f2, lidx) →
      lidx ≠ C.encoded_block_size →
      decode V C input = .error .padding) ∧
    (∀ input : List Char,
      (∀ u, V.should_ignore u = true → V.is_padding_symbol u = false) →
      (∀ u, V.is_padding_symbol u = true → V.is_special_character u = true) →
      V.is_padding_symbol 0 = false →
      (∀ a ∈ input, ∃ u, V.index_of a = some u ∧ V.is_special_character u = false) →
      liveCount V input % C.encoded_block_size ≠ 0 →
      decode V C input = .error .padding) := by
  constructor
  · intro input st orest f2 lidx hrun h0 hscan hlidx
    unfold decode
    rw [hrun, decodePost_ok, hscan]
    simp only [finishPhase]
    rw [if_pos h0, if_pos ⟨hreq, hlidx⟩]
  · intro input hip hPS hzp hall hcnt
    obtain ⟨f2, out2, hf2, he⟩ := mainRun_nonspecial V C hip hPS input (fun _ => 0) 0 []
      hall (padFree_init V hzp) C.encoded_block_size_pos
    rw [Nat.zero_add] at he
    have hlt : liveCount V input % C.encoded_block_size < C.encoded_block_size :=
      Nat.mod_lt _ C.encoded_block_size_pos
    unfold decode
    show decodePost V C (mainRun V C input ⟨fun _ => 0, 0, []⟩) = .error .padding
    rw [he, decodePost_ok]
    have hsc : scanPhase V C ⟨f2, liveCount V input % C.encoded_block_size, out2⟩
        ((none : Option (List Char)).getD [])
        = .ok (f2, liveCount V input % C.encoded_block_size) := by
      unfold scanPhase
      rw [if_neg (by
        show ¬ V.is_padding_symbol (f2 (liveCount V input % C.encoded_block_size)) = true
        rw [hf2 _]
        exact Bool.false_ne_true)]
    rw [hsc]
    simp only [finishPhase]
    rw [if_pos (by show liveCount V input % C.encoded_block_size ≠ 0; omega),
      if_pos ⟨hreq, by show liveCount V input % C.encoded_block_size ≠ C.encoded_block_size; omega⟩]

/-- Claim C8: an end-marker character stops decoding: the input after it is
neither consumed nor validated, so decoding `s ++ [eof] ++ t` has exactly the
same outcome as decoding `s ++ [eof]`. -/
theorem c8_eof_stops (V : CodecVariant) (C : Codec) (e : Char) (v : Nat)
    (hv : V.index_of e = some v) (hig : V.should_ignore v = false)
    (hsp : V.is_special_character v = true) (hve : V.is_eof v = true)
    (hvp : V.is_padding_symbol v = false) (s t : List Char) :
    decode V C (s ++ e :: t) = decode V C (s ++ [e]) := by
  unfold decode
  rw [mainRun_append V C s (e :: t) initSt, mainRun_append V C s [e] initSt]
  cases hm : mainRun V C s initSt with
  | error er => rfl
  | ok p =>
    obtain ⟨st, orest⟩ := p
    cases orest with
    | some rest =>
      show decodePost V C (.ok (st, some (rest ++ e :: t)))
        = decodePost V C (.ok (st, some (rest ++ [e])))
      rw [decodePost_ok, decodePost_ok]
      unfold scanPhase
      by_cases hp : V.is_padding_symbol (st.idx st.lvi) = true
      · rw [if_pos hp, if_pos hp]
        simp only [Option.getD_some]
        rw [padScan_eof_cut V C e v hv hve rest t st.idx (st.lvi + 1)]
      · rw [if_neg hp, if_neg hp]
    | none =>
      show decodePost V C (mainRun V C (e :: t) st) = decodePost V C (mainRun V C [e] st)
      simp only [mainRun, hv, hig, hsp, Bool.false_eq_true, if_false, eq_self_iff_true, if_true]
      rw [decodePost_ok, decodePost_ok]
      unfold scanPhase
      have hcond : ¬ V.is_padding_symbol
          ((⟨upd st.idx st.lvi v, st.lvi, st.out⟩ : DecSt).idx
            (⟨upd st.idx st.lvi v, st.lvi, st.out⟩ : DecSt).lvi) = true := by
        show ¬ V.is_padding_symbol (upd st.idx st.lvi v st.lvi) = true
        rw [upd_self, hvp]
        exact Bool.false_ne_true
      rw [if_neg hcond, if_neg hcond]

/-- Claim C10: an input of k padding symbols alone decodes to empty output
for 1 ≤ k ≤ encoded_block_size, even when the variant requires padding,
because no data values were accumulated; more than encoded_block_size
consecutive padding symbols give a padding error. -/
theorem c10_padding_only_input (V : CodecVariant) (C : Codec) (pc : Char) (v : Nat)
    (hv : V.index_of pc = some v) (hig : V.should_ignore v = false)
    (hsp : V.is_special_character v = true) (hpd : V.is_padding_symbol v = true)
    (hne : V.is_eof v = false) (k : Nat) :
    (1 ≤ k → k ≤ C.encoded_block_size → decode V C (List.replicate k pc) = .ok []) ∧
    (C.encoded_block_size < k → decode V C (List.replicate k pc) = .error .padding) := by
  have hE := C.encoded_block_size_pos
  have hreps : ∀ a ∈ List.replicate (k - 1) pc, ∃ u, V.index_of a = some u ∧
      V.is_eof u = false ∧ V.is_padding_symbol u = true := by
    intro a ha
    rw [List.eq_of_mem_replicate ha]
    exact ⟨v, hv, hne, hpd⟩
  constructor
  · intro h1 hk
    obtain ⟨k', rfl⟩ : ∃ k', k = k' + 1 := ⟨k - 1, by omega⟩
    unfold decode initSt
    rw [List.replicate_succ]
    simp only [mainRun, hv]
    rw [if_neg (ne_true_of_eq_false hig), if_pos hsp, decodePost_ok]
    obtain ⟨f2, hpres, hscan⟩ := (padScan_pads V C (List.replicate k' pc)
      (upd (fun _ => 0) 0 v) 1 (by simpa using hreps) (by omega)).1
      (by simp only [List.length_replicate]; omega)
    have hsc : scanPhase V C ⟨upd (fun _ => 0) 0 v, 0, []⟩
        ((some (List.replicate k' pc)).getD []) = .ok (f2, 1 + k') := by
      unfold scanPhase
      rw [if_pos (by
        show V.is_padding_symbol (upd (fun _ => 0) 0 v 0) = true
        rw [upd_self]
        exact hpd)]
      simp only [Option.getD_some]
      rw [hscan]
      simp only [List.length_replicate]
    rw [hsc]
    simp only [finishPhase]
    rw [if_neg (by omega)]
  · intro hk
    obtain ⟨k', rfl⟩ : ∃ k', k = k' + 1 := ⟨k - 1, by omega⟩
    unfold decode initSt
    rw [List.replicate_succ]
    simp only [mainRun, hv]
    rw [if_neg (ne_true_of_eq_false hig), if_pos hsp, decodePost_ok]
    have hscan := (padScan_pads V C (List.replicate k' pc)
      (upd (fun _ => 0) 0 v) 1 (by simpa using hreps) (by omega)).2
      (by simp only [List.length_replicate]; omega)
    have hsc : scanPhase V C ⟨upd (fun _ => 0) 0 v, 0, []⟩
        ((some (List.replicate k' pc)).getD []) = .error .padding := by
      unfold scanPhase
      rw [if_pos (by
        show V.is_padding_symbol (upd (fun _ => 0) 0 v 0) = true
        rw [upd_self]
        exact hpd)]
      simp only [Option.getD_some]
      exact hscan
    rw [hsc]
    rfl

theorem b64_hip : ∀ u, b64v.should_ignore u = true → b64v.is_padding_symbol u = false := by
  intro u hu
  have hu66 : u = 66 := by simpa [b64v] using hu
  subst hu66
  rfl

theorem b64_hPS : ∀ u, b64v.is_padding_symbol u = true → b64v.is_special_character u = true := by
  intro u hu
  have hu65 : u = 65 := by simpa [b64v] using hu
  subst hu65
  rfl

/-- Claim C1 (the code violates it — evaluation at the failing input):
decoding `AAA==` with the base64 collaborators performs buffer stores at
positions 0, 1, 2, 3 and 4, the last being `encoded_block_size` itself —
one past the final valid index of `uint8_t idx[encoded_block_size]` — inside
the padding-validation scan, before the decode fails with a padding error. -/
theorem c1_oob_store_eval :
    (decodeT b64v b64c ['A', 'A', 'A', '=', '=']).2 = [0, 1, 2, 3, 4] ∧
    b64c.encoded_block_size = 4 ∧
    (decodeT b64v b64c ['A', 'A', 'A', '=', '=']).1 = .error .padding := by
  refine ⟨?_, rfl, ?_⟩ <;> rfl

/-- Counterexample to claim C5 as stated: `AB==` decodes successfully, `'\n'`
classifies as ignorable, yet inserting it inside the final padding run makes
decode fail with a padding error instead of returning the same bytes. -/
theorem c5_counterexample :
    decode b64v b64c ['A', 'B', '=', '='] = .ok [0] ∧
    b64v.index_of '\n' = some 66 ∧
    b64v.should_ignore 66 = true ∧
    decode b64v b64c ['A', 'B', '=', '\n', '='] = .error .padding := by
  refine ⟨?_, rfl, rfl, ?_⟩ <;> rfl

/-- Witness for the amended C5: inserting an ignorable line break after the
prefix `A` of `AB==` leaves the decode outcome unchanged. -/
theorem c5_insert_ignorable_witness :
    decode b64v b64c (['A'] ++ '\n' :: ['B', '=', '=']) =
      decode b64v b64c (['A'] ++ ['B', '=', '=']) :=
  (c5_insert_ignorable b64v b64c b64_hip b64_hPS rfl ['A'] ['B', '=', '='] '\n' 66
    ⟨upd (fun _ => 0) 0 0, 1, []⟩ rfl rfl rfl rfl).1

/-- Witness for C6: decoding `AB==C` fails with a padding error, the data
symbol `C` arriving after the padding run has begun. -/
theorem c6_nonpadding_after_padding_witness :
    decode b64v b64c ['A', 'B', '=', '=', 'C'] = .error .padding :=
  c6_nonpadding_after_padding b64v b64c ['A', 'B', '=', '=', 'C']
    ⟨upd (upd (upd (fun _ => 0) 0 0) 1 1) 2 65, 2, []⟩ ['='] [] 'C' 2
    rfl rfl
    (by
      intro a ha
      rw [List.mem_singleton] at ha
      subst ha
      exact ⟨65, rfl, rfl, rfl⟩)
    rfl rfl rfl

/-- Witness for C7: decoding `AB` (two data symbols, no padding) under the
padding-requiring base64 variant fails with a padding error. -/
theorem c7_requires_padding_length_witness :
    decode b64v b64c ['A', 'B'] = .error .padding :=
  (c7_requires_padding_length b64v b64c rfl).2 ['A', 'B'] b64_hip b64_hPS rfl
    (by
      intro a ha
      rcases List.mem_cons.mp ha with rfl | ha
      · exact ⟨0, rfl, rfl⟩
      rcases List.mem_cons.mp ha with rfl | ha
      · exact ⟨1, rfl, rfl⟩
      · exact absurd ha (List.not_mem_nil a))
    (by decide)

/-- Witness for C8: decoding `AQID` followed by the NUL end marker and junk
gives exactly the outcome of decoding `AQID` followed by the end marker
alone. -/
theorem c8_eof_stops_witness :
    decode b64v b64c (['A', 'Q', 'I', 'D'] ++ Char.ofNat 0 :: ['*', '*']) =
      decode b64v b64c (['A', 'Q', 'I', 'D'] ++ [Char.ofNat 0]) :=
  c8_eof_stops b64v b64c (Char.ofNat 0) 64 rfl rfl rfl rfl rfl
    ['A', 'Q', 'I', 'D'] ['*', '*']

/-- Witness for C10: two padding symbols alone decode to empty output under
the padding-requiring base64 variant, while five (more than the block size)
give a padding error. -/
theorem c10_padding_only_input_witness :
    decode b64v b64c (List.replicate 2 '=') = .ok [] ∧
    decode b64v b64c (List.replicate 5 '=') = .error .padding :=
  ⟨(c10_padding_only_input b64v b64c '=' 65 rfl rfl rfl rfl rfl 2).1 (by decide) (by decide),
    (c10_padding_only_input b64v b64c '=' 65 rfl rfl rfl rfl rfl 5).2 (by decide)⟩
